import Mathlib

/-!
Verification of the schematic metadata-model core: a shallow embedding of
`schematic/utils/curie_utils.py` and `schematic/models/metadata.py`.

Python strings are modelled as `List Char` (`Str`); Python `str.split`,
`str.strip` and the `in` substring test are modelled by structurally
recursive functions with the same semantics (split on a non-empty
separator, non-overlapping, left to right; strip of ASCII whitespace).
Fallible Python code (code that can raise) is modelled with `Except`.
External collaborators that the source calls but that are not part of the
embedded modules (the compiled JSON schema together with the Draft-7
validator, the relevance key used to sort validation errors, the node
validation-rule lookup on the schema graph, the `SchemaGenerator`
descendant query, the class-membership check and the storage client) are
taken as explicit function parameters, so every theorem quantifies over
them.
-/

deriving instance DecidableEq for Except

namespace Schematic

/-- Python strings, modelled as lists of characters. -/
abbrev Str := List Char

/-- Conversion of a Lean string literal into the `Str` model. -/
def str (s : String) : Str := s.toList

/-- The characters Python `str.strip()` removes (ASCII whitespace). -/
def isPySpace (c : Char) : Bool :=
  c = ' ' || c = '\t' || c = '\n' || c = '\r' || c = '\x0b' || c = '\x0c'

/-- Python `s.strip()`: drop leading and trailing whitespace. -/
def pyStrip (s : Str) : Str :=
  ((s.dropWhile isPySpace).reverse.dropWhile isPySpace).reverse

/-- Python `s.split(sep)` for a one-character separator. -/
def pySplit1 (sep : Char) : Str → List Str
  | [] => [[]]
  | c :: cs =>
    if c = sep then [] :: pySplit1 sep cs
    else match pySplit1 sep cs with
      | [] => [[c]]
      | seg :: rest => (c :: seg) :: rest

/-- Python `s.split(sep)` for a two-character separator
(non-overlapping, left to right). -/
def pySplit2 (c1 c2 : Char) : Str → List Str
  | [] => [[]]
  | [c] => [[c]]
  | c :: d :: cs =>
    if c = c1 ∧ d = c2 then [] :: pySplit2 c1 c2 cs
    else match pySplit2 c1 c2 (d :: cs) with
      | [] => [[c]]
      | seg :: rest => (c :: seg) :: rest

/-- Python `sub in s` (substring containment). -/
def pyContains (sub : Str) : Str → Bool
  | [] => sub.isEmpty
  | c :: cs => sub.isPrefixOf (c :: cs) || pyContains sub cs

/-- A single-quote character, used in the Python f-string error message. -/
def sq : Char := Char.ofNat 39

/-! ## `schematic/utils/curie_utils.py` -/

/-- `extract_name_from_uri_or_curie(item)`: return the second part of a
two-part colon-split when `item` has no "http" substring, else the last
"/"-segment of the part after the last "//", else raise `ValueError`. -/
def extract_name_from_uri_or_curie (item : Str) : Except Str Str :=
  if !pyContains (str "http") item && (pySplit1 ':' item).length == 2 then
    .ok ((pySplit1 ':' item).getLastD [])
  else if (pySplit1 '/' ((pySplit2 '/' '/' item).getLastD [])).length > 1 then
    .ok ((pySplit1 '/' ((pySplit2 '/' '/' item).getLastD [])).getLastD [])
  else
    .error (str "Error extracting name from URI or Curie.")

/-- The fixed prefixes `expand_curie_to_uri` never expands. -/
def prefixes_not_expand : List Str := [str "rdf", str "rdfs", str "xsd"]

/-- `expand_curie_to_uri(curie, context_info)`: when `curie` splits into
exactly two colon-separated parts whose first part is a context key
outside the no-expand set, replace it by the context value concatenated
with the second part; otherwise return the input unmodified. -/
def expand_curie_to_uri (curie : Str) (context_info : List (Str × Str)) : Str :=
  if (pySplit1 ':' curie).length == 2 then
    let pfx := (pySplit1 ':' curie).getD 0 []
    let value := (pySplit1 ':' curie).getD 1 []
    if (context_info.lookup pfx).isSome && !(prefixes_not_expand.contains pfx) then
      (context_info.lookup pfx).getD [] ++ value
    else curie
  else curie

/-- JSON-LD values occurring in a `@graph` record of a SchemaOrg file. -/
inductive LDVal where
  | vstr : Str → LDVal
  | varr : List LDVal → LDVal
  | vobj : List (Str × LDVal) → LDVal
  | vnum : Int → LDVal
  | vbool : Bool → LDVal
  | vnull : LDVal

/-- Python dict assignment `d[k] = v`: overwrite in place when the key is
present, append otherwise. -/
def upsert (k : Str) (v : LDVal) (r : List (Str × LDVal)) : List (Str × LDVal) :=
  if r.any (fun p => p.1 == k) then
    r.map (fun p => if p.1 == k then (k, v) else p)
  else r ++ [(k, v)]

/-- The body of the list-of-dicts branch of `expand_curies_in_schema`:
`{"@id": expand_curie_to_uri(_item["@id"], context)}`; raises when the
item is not a dict, lacks `"@id"`, or its `"@id"` is not a string. -/
def expandListItemObj (ctx : List (Str × Str)) : LDVal → Except Str LDVal
  | .vobj fields =>
    match fields.lookup (str "@id") with
    | some (.vstr s) => .ok (.vobj [(str "@id", .vstr (expand_curie_to_uri s ctx))])
    | some _ => .error (str "AttributeError")
    | none => .error (str "KeyError: @id")
  | _ => .error (str "TypeError")

/-- The body of the list-of-non-dicts branch of `expand_curies_in_schema`:
`expand_curie_to_uri(_item, context)`; raises on a non-string item. -/
def expandListItemStr (ctx : List (Str × Str)) : LDVal → Except Str LDVal
  | .vstr s => .ok (.vstr (expand_curie_to_uri s ctx))
  | _ => .error (str "AttributeError")

/-- The per-value dispatch of `expand_curies_in_schema`: `some` is a value
stored in the new record, `none` a silently dropped value, `.error` a
raised exception. An empty list raises (`value[0]` on an empty list). -/
def expandValue (ctx : List (Str × Str)) : LDVal → Except Str (Option LDVal)
  | .vstr s => .ok (some (.vstr (expand_curie_to_uri s ctx)))
  | .varr [] => .error (str "IndexError: list index out of range")
  | .varr (v0 :: vs) =>
    match v0 with
    | .vobj _ =>
      ((v0 :: vs).mapM (expandListItemObj ctx)).map (fun items => some (.varr items))
    | _ =>
      ((v0 :: vs).mapM (expandListItemStr ctx)).map (fun items => some (.varr items))
  | .vobj fields =>
    match fields.lookup (str "@id") with
    | some (.vstr s) =>
      .ok (some (.vobj [(str "@id", .vstr (expand_curie_to_uri s ctx))]))
    | some _ => .error (str "AttributeError")
    | none => .ok none
  | .vnum _ => .ok none
  | .vbool _ => .ok none
  | .vnull => .ok (some .vnull)

/-- One step of the per-record loop of `expand_curies_in_schema`: a kept
value is stored under the expanded key by Python dict assignment, a
dropped value leaves the record unchanged, an exception propagates. -/
def expandStep (ctx : List (Str × Str)) (acc : List (Str × LDVal)) (kv : Str × LDVal) :
    Except Str (List (Str × LDVal)) :=
  match expandValue ctx kv.2 with
  | .error e => .error e
  | .ok (some v) => .ok (upsert (expand_curie_to_uri kv.1 ctx) v acc)
  | .ok none => .ok acc

/-- The per-record loop of `expand_curies_in_schema`: build `new_record`
by Python dict assignment of each kept key-value pair, the key expanded. -/
def expandRecord (ctx : List (Str × Str)) (record : List (Str × LDVal)) :
    Except Str (List (Str × LDVal)) :=
  record.foldlM (expandStep ctx) []

/-- A value is a vstr. -/
def isVStr : LDVal → Bool
  | .vstr _ => true
  | _ => false

/-- A list item the list-of-dicts branch of `expand_curies_in_schema`
processes without raising: a dict whose `"@id"` is a string. -/
def goodObjItem : LDVal → Bool
  | .vobj fs =>
    match fs.lookup (str "@id") with
    | some (.vstr _) => true
    | _ => false
  | _ => false

/-- A record value on which `expandValue` does not raise: anything except
an empty list, an inhomogeneous or non-string/non-dict-with-string-id
list, and a dict whose `"@id"` is present but not a string. -/
def goodVal : LDVal → Bool
  | .varr [] => false
  | .varr (v0 :: vs) =>
    match v0 with
    | .vobj _ => (v0 :: vs).all goodObjItem
    | _ => (v0 :: vs).all isVStr
  | .vobj fields =>
    match fields.lookup (str "@id") with
    | some (.vstr _) => true
    | some _ => false
    | none => true
  | _ => true

/-- A record value `expand_curies_in_schema` keeps in the output record:
strings, lists, dicts containing `"@id"`, and null; numbers, booleans and
dicts without `"@id"` are dropped. -/
def keptVal : LDVal → Bool
  | .vstr _ => true
  | .varr _ => true
  | .vobj fields => (fields.lookup (str "@id")).isSome
  | .vnum _ => false
  | .vbool _ => false
  | .vnull => true

/-- The output value of one list item: dict items become
`{"@id": expanded id}`, string items are curie-expanded. -/
def expandItem (ctx : List (Str × Str)) : LDVal → LDVal
  | .vobj fs => .vobj [(str "@id", .vstr (expand_curie_to_uri
      (match fs.lookup (str "@id") with | some (.vstr s) => s | _ => []) ctx))]
  | .vstr s => .vstr (expand_curie_to_uri s ctx)
  | x => x

/-- The output value stored for a kept, well-shaped input value. -/
def expandedVal (ctx : List (Str × Str)) : LDVal → LDVal
  | .vstr s => .vstr (expand_curie_to_uri s ctx)
  | .varr vs => .varr (vs.map (expandItem ctx))
  | .vobj fs => .vobj [(str "@id", .vstr (expand_curie_to_uri
      (match fs.lookup (str "@id") with | some (.vstr s) => s | _ => []) ctx))]
  | x => x

/-- The expanded keys of the kept values of a record, in record order. -/
def keptKeys (ctx : List (Str × Str)) (record : List (Str × LDVal)) : List Str :=
  record.filterMap (fun kv =>
    if keptVal kv.2 then some (expand_curie_to_uri kv.1 ctx) else none)

/-- A JSON-LD schema document with `@context`, `@graph` and `@id` keys. -/
structure LDDoc where
  context : List (Str × Str)
  graph : List (List (Str × LDVal))
  id : Str

/-- `expand_curies_in_schema(schema)`: same `@context` and `@id`, each
graph record rebuilt by `expandRecord`. -/
def expand_curies_in_schema (schema : LDDoc) : Except Str LDDoc :=
  (schema.graph.mapM (expandRecord schema.context)).map
    (fun graph2 => ⟨schema.context, graph2, schema.id⟩)

/-! ## `schematic/models/metadata.py` -/

/-- A raw manifest cell as produced by `pd.read_csv` + `fillna("")`:
a string, an integer, or a boolean. -/
inductive Cell where
  | cstr : Str → Cell
  | cint : Int → Cell
  | cbool : Bool → Cell
deriving DecidableEq

/-- Python `str(cell)` / pandas `astype(str)` on a cell. -/
def cellToStr : Cell → Str
  | .cstr s => s
  | .cint n => (toString n).toList
  | .cbool true => str "True"
  | .cbool false => str "False"

/-- pandas elementwise equality of a cell with a Python string
(`manifest['Component'] == rootNode`): only a string cell can be equal. -/
def cellEqStr (c : Cell) (s : Str) : Bool :=
  match c with
  | .cstr t => t == s
  | _ => false

/-- pandas `Series.unique()`: the values in order of first appearance.
`seen` accumulates the values already emitted. -/
def uniqueAux [DecidableEq α] (seen : List α) : List α → List α
  | [] => []
  | x :: xs =>
    if seen.contains x then uniqueAux seen xs
    else x :: uniqueAux (seen ++ [x]) xs

/-- pandas `Series.unique()` on a list of values. -/
def uniqueList [DecidableEq α] (l : List α) : List α := uniqueAux [] l

/-- Modelled from the spec: the loaded ManifestTable — an ordered
sequence of rows over named columns — as produced by the external loading
step (`pd.read_csv`, `trim_commas_df`, `fillna("")` in the source), which
is not among the embedded modules. -/
structure Manifest where
  cols : List Str
  rows : List (List Cell)

/-- The `manifest['Component']` series: the cell of each row at the
position of the `Component` column. -/
def componentSeries (m : Manifest) : List Cell :=
  m.rows.map (fun r => r.getD (m.cols.indexOf (str "Component")) (Cell.cstr []))

/-- The f-string
`"Component value provided is: '{component}', whereas the Template Type is: '{rootNode}'"`. -/
def mismatchMsg (c : Cell) (root : Str) : Str :=
  str "Component value provided is: " ++ [sq] ++ cellToStr c ++ [sq] ++
    str ", whereas the Template Type is: " ++ [sq] ++ root ++ [sq]

/-- A normalized manifest cell: a scalar string, or — for a column whose
node carries the `list` validation rule — a list of strings. -/
inductive NVal where
  | s : Str → NVal
  | l : List Str → NVal
deriving DecidableEq

/-- A JSON value that can appear as the `instance` of a Draft-7 validation
error over a flat manifest record: a field value or the whole record. -/
inductive JVal where
  | field : NVal → JVal
  | record : List (Str × NVal) → JVal
deriving DecidableEq

/-- A value reported inside a validation error: the `(component, rootNode)`
pair of a component mismatch, a copied `error.instance`, or the
`"Wrong schema"` sentinel. -/
inductive EVal where
  | pair : Cell → Str → EVal
  | inst : JVal → EVal
  | wrongSchema : EVal
deriving DecidableEq

/-- An error tuple `[row, column, message, value]` appended to `errors`. -/
abbrev VErr := Nat × Str × Str × EVal

/-- The component-mismatch error list: `row_idxs` (positions where the
`Component` cell differs from the root), the `iloc` lookup of those
positions, and one error tuple per mismatched row. -/
def mismatchErrors (rootNode : Str) (series : List Cell) : List VErr :=
  let row_idxs := (series.enum.filter (fun p => !cellEqStr p.2 rootNode)).map Prod.fst
  let mismatched := row_idxs.map (fun i => (i, series.getD i (Cell.cstr [])))
  mismatched.map (fun p =>
    (p.1 + 2, str "Component", mismatchMsg p.2 rootNode, EVal.pair p.2 rootNode))

/-- One column of the manifest, by position. -/
def colValues (m : Manifest) (j : Nat) : List Cell :=
  m.rows.map (fun r => r.getD j (Cell.cstr []))

/-- Normalization of one column: `astype(str)` on every cell (the
`applymap(strip)` on the line above it discards its result, so no cell is
trimmed here), then, when the column node carries the `list` rule,
`[s.strip() for s in str(x).split(",")]` on every cell. -/
def normalizeCol (rules : Str → List Str) (c : Str) (vals : List Cell) : List NVal :=
  let strs := vals.map cellToStr
  if (rules c).contains (str "list") then
    strs.map (fun x => NVal.l ((pySplit1 ',' x).map pyStrip))
  else strs.map NVal.s

/-- `json.loads(manifest.to_json(orient='records'))`: one record per row,
each column name paired with the row's normalized cell of that column. -/
def annotationsOf (rules : Str → List Str) (m : Manifest) : List (List (Str × NVal)) :=
  (List.range m.rows.length).map (fun i =>
    m.cols.enum.map (fun jc =>
      (jc.2, (normalizeCol rules jc.2 (colValues m jc.1)).getD i (NVal.s []))))

/-- A Draft-7 validation error as consumed by `validateModelManifest`:
its `path`, its `message` and its `instance`. -/
structure JError where
  path : List Str
  message : Str
  inst : JVal
deriving DecidableEq

/-- The error tuple built for one validator error of row `i`: row `i + 2`,
the last path element (or the `"Wrong schema"` sentinel on an empty path),
the message sliced to its first 500 characters, and the instance (or the
sentinel on an empty path). -/
def errTuple (i : Nat) (e : JError) : VErr :=
  (i + 2,
   if e.path.length > 0 then e.path.getLastD [] else str "Wrong schema",
   e.message.take 500,
   if e.path.length > 0 then EVal.inst e.inst else EVal.wrongSchema)

/-- Ascending insertion of an integer into a sorted list. -/
def insertInt (n : Int) : List Int → List Int
  | [] => [n]
  | m :: ms => if n ≤ m then n :: m :: ms else m :: insertInt n ms

/-- Ascending sort of a list of integers. -/
def sortInts (l : List Int) : List Int := l.foldr insertInt []

/-- Python `sorted(es, key=rel)`: the stable sort by the integer key —
the elements of each key class in original order, classes in ascending
key order. -/
def sortByRelevance (rel : JError → Int) (es : List JError) : List JError :=
  (uniqueList (sortInts (es.map rel))).flatMap (fun k => es.filter (fun e => rel e == k))

/-- The per-row schema-validation loop: for each row index, the validator
errors of that row's record, sorted by relevance and mapped to error
tuples, all concatenated in row order. -/
def schemaPhase (rules : Str → List Str) (V : List (Str × NVal) → List JError)
    (rel : JError → Int) (m : Manifest) : List VErr :=
  ((List.range (annotationsOf rules m).length).map (fun i =>
    (sortByRelevance rel (V ((annotationsOf rules m).getD i []))).map (errTuple i))).flatten

/-- `MetadataModel.validateModelManifest`, over the loaded manifest table.
`rules` is `self.sg.get_node_validation_rules`, `V` the Draft-7 validator
`iter_errors` on the compiled schema, `rel` the `jsonschema.exceptions.relevance`
sort key. When a `Component` column is present and the unique component
values differ from the root, the per-row mismatch errors are returned and
no schema validation runs; a zero-row manifest with a `Component` column
raises (`unique()[0]` on an empty array); otherwise the accumulated
schema-validation errors are returned. -/
def validateModelManifest (rules : Str → List Str) (V : List (Str × NVal) → List JError)
    (rel : JError → Int) (rootNode : Str) (m : Manifest) : Except Str (List VErr) :=
  if m.cols.contains (str "Component") then
    let series := componentSeries m
    let u := uniqueList series
    if u.length > 1 then .ok (mismatchErrors rootNode series)
    else match u with
      | [] => .error (str "IndexError: index 0 is out of bounds")
      | x :: _ =>
        if !cellEqStr x rootNode then .ok (mismatchErrors rootNode series)
        else .ok (schemaPhase rules V rel m)
  else .ok (schemaPhase rules V rel m)

/-- `MetadataModel.getOrderedModelNodes`: the reversed result of the
`SchemaGenerator` descendant query with `connected=True, ordered=True`. -/
def getOrderedModelNodes (get_descendants_by_edge_type : String → String → Bool → Bool → List String)
    (rootNode relationshipType : String) : List String :=
  (get_descendants_by_edge_type rootNode relationshipType true true).reverse

/-- The exceptions `submit_metadata_manifest` can raise: the unknown
component `ValueError`, the `ValidationError` carrying the full error
list, or an exception propagated out of `validateModelManifest`. -/
inductive SubmitErr where
  | unknownComponent : Str → SubmitErr
  | validationFailed : List VErr → SubmitErr
  | manifestError : Str → SubmitErr

/-- The observable outcome of `submit_metadata_manifest`: whether
validation ran, whether `associateMetadataWithFiles` was invoked, and the
returned value or raised exception. -/
structure SubmitOutcome where
  validationRan : Bool
  associateCalled : Bool
  result : Except SubmitErr Bool

/-- `MetadataModel.submit_metadata_manifest`: optionally check the
component against the schema (`classInSchemaOk` models whether
`is_class_in_schema` runs without raising), optionally validate, and
associate the manifest exactly when validation succeeds or is skipped. -/
def submit_metadata_manifest (rules : Str → List Str)
    (V : List (Str × NVal) → List JError) (rel : JError → Int)
    (classInSchemaOk : Str → Bool) (m : Manifest)
    (validate_component : Option Str) : SubmitOutcome :=
  match validate_component with
  | some c =>
    if !classInSchemaOk c then ⟨false, false, .error (.unknownComponent c)⟩
    else
      match validateModelManifest rules V rel c m with
      | .error e => ⟨true, false, .error (.manifestError e)⟩
      | .ok val_errors =>
        if val_errors.isEmpty then ⟨true, true, .ok true⟩
        else ⟨true, false, .error (.validationFailed val_errors)⟩
  | none => ⟨false, true, .ok true⟩

/-- The branch condition under which `validateModelManifest` reaches the
per-row schema validation: no `Component` column, or a non-empty
`Component` series whose every cell equals the root node. -/
def componentOK (rootNode : Str) (m : Manifest) : Bool :=
  !m.cols.contains (str "Component") ||
    (!(componentSeries m).isEmpty &&
      (componentSeries m).all (fun c => cellEqStr c rootNode))

/-! ## Helper lemmas -/

/-- In a duplicate-free list the index of a member in the reversed list is
the mirrored index. -/
theorem indexOf_reverse_of_nodup {α : Type} [DecidableEq α] {l : List α} (hl : l.Nodup)
    {x : α} (hx : x ∈ l) :
    l.reverse.indexOf x = l.length - 1 - l.indexOf x := by
  have hxr : x ∈ l.reverse := List.mem_reverse.mpr hx
  have hj : l.reverse.indexOf x < l.reverse.length := List.indexOf_lt_length.mpr hxr
  have hi : l.indexOf x < l.length := List.indexOf_lt_length.mpr hx
  have hj2 : l.reverse.indexOf x < l.length := by simpa using hj
  have h1 : l.reverse.get ⟨l.reverse.indexOf x, hj⟩ = x := List.indexOf_get hj
  have h2 : l.get ⟨l.indexOf x, hi⟩ = x := List.indexOf_get hi
  have h3 : l.reverse.get ⟨l.reverse.indexOf x, hj⟩ =
      l.get ⟨l.length - 1 - l.reverse.indexOf x, by omega⟩ := by
    simp only [List.get_eq_getElem]
    rw [List.getElem_reverse]
  have h4 : l.get ⟨l.length - 1 - l.reverse.indexOf x, by omega⟩ = l.get ⟨l.indexOf x, hi⟩ := by
    rw [h3] at h1; rw [h1, h2]
  have h5 := (List.Nodup.get_inj_iff hl).mp h4
  have h6 : l.length - 1 - l.reverse.indexOf x = l.indexOf x := congrArg Fin.val h5
  omega

/-- A cell compares equal to a Python string exactly when it is that
string cell. -/
theorem cellEqStr_iff (c : Cell) (s : Str) : cellEqStr c s = true ↔ c = Cell.cstr s := by
  cases c <;> simp [cellEqStr]

/-- `uniqueAux seen l` is empty exactly when every element of `l` was
already seen. -/
theorem uniqueAux_eq_nil {α : Type} [DecidableEq α] (seen l : List α) :
    uniqueAux seen l = [] ↔ ∀ x ∈ l, x ∈ seen := by
  induction l generalizing seen with
  | nil => simp [uniqueAux]
  | cons x xs ih =>
    by_cases hx : x ∈ seen
    · have hc : seen.contains x = true := List.elem_eq_true_of_mem hx
      simp only [uniqueAux, hc, if_true, ih, List.mem_cons]
      constructor
      · intro h y hy
        rcases hy with hy | hy
        · rw [hy]; exact hx
        · exact h y hy
      · intro h y hy
        exact h y (Or.inr hy)
    · have hc : seen.contains x = false := by
        rw [Bool.eq_false_iff]
        intro hmem
        exact hx (List.elem_iff.mp hmem)
      simp only [uniqueAux, hc, Bool.false_eq_true, if_false]
      constructor
      · intro h
        exact absurd h (List.cons_ne_nil x _)
      · intro h
        exact absurd (h x (List.mem_cons_self x xs)) hx

/-- Membership in `uniqueAux seen l`: the unseen elements of `l`. -/
theorem mem_uniqueAux {α : Type} [DecidableEq α] (seen l : List α) (a : α) :
    a ∈ uniqueAux seen l ↔ a ∈ l ∧ a ∉ seen := by
  induction l generalizing seen with
  | nil => simp [uniqueAux]
  | cons x xs ih =>
    by_cases hx : x ∈ seen
    · have hc : seen.contains x = true := List.elem_eq_true_of_mem hx
      simp only [uniqueAux, hc, if_true, ih, List.mem_cons]
      constructor
      · rintro ⟨h1, h2⟩
        exact ⟨Or.inr h1, h2⟩
      · rintro ⟨h1 | h1, h2⟩
        · rw [h1] at h2; exact absurd hx h2
        · exact ⟨h1, h2⟩
    · have hc : seen.contains x = false := by
        rw [Bool.eq_false_iff]
        intro hmem
        exact hx (List.elem_iff.mp hmem)
      simp only [uniqueAux, hc, Bool.false_eq_true, if_false, List.mem_cons, ih]
      constructor
      · rintro (h1 | ⟨h1, h2⟩)
        · rw [h1]; exact ⟨Or.inl rfl, hx⟩
        · exact ⟨Or.inr h1, fun hmem => h2 (List.mem_append.mpr (Or.inl hmem))⟩
      · rintro ⟨h1 | h1, h2⟩
        · exact Or.inl h1
        · by_cases hax : a = x
          · exact Or.inl hax
          · refine Or.inr ⟨h1, ?_⟩
            intro hmem
            rcases List.mem_append.mp hmem with h3 | h3
            · exact h2 h3
            · exact hax (List.mem_singleton.mp h3)

/-- Membership in `uniqueList`. -/
theorem mem_uniqueList {α : Type} [DecidableEq α] (l : List α) (a : α) :
    a ∈ uniqueList l ↔ a ∈ l := by
  simp [uniqueList, mem_uniqueAux]

/-- If `uniqueAux seen l` is the single value `c`, every element of `l`
was seen or equals `c`. -/
theorem uniqueAux_eq_singleton {α : Type} [DecidableEq α] (seen l : List α) (c : α)
    (h : uniqueAux seen l = [c]) : ∀ x ∈ l, x ∈ seen ∨ x = c := by
  intro x hx
  by_cases hseen : x ∈ seen
  · exact Or.inl hseen
  · have : x ∈ uniqueAux seen l := (mem_uniqueAux seen l x).mpr ⟨hx, hseen⟩
    rw [h] at this
    exact Or.inr (List.mem_singleton.mp this)

/-- If `l` is non-empty and all its elements equal `c`, its unique values
are `[c]`. -/
theorem uniqueList_all_eq {α : Type} [DecidableEq α] (l : List α) (c : α)
    (hne : l ≠ []) (hall : ∀ x ∈ l, x = c) : uniqueList l = [c] := by
  obtain ⟨x, xs, rfl⟩ := List.exists_cons_of_ne_nil hne
  have hx : x = c := hall x (List.mem_cons_self x xs)
  have hxs : ∀ y ∈ xs, y = c := fun y hy => hall y (List.mem_cons_of_mem x hy)
  have hc : ([] : List α).contains x = false := rfl
  simp only [uniqueList, uniqueAux, hc, Bool.false_eq_true, if_false, List.nil_append]
  rw [hx]
  have : uniqueAux [c] xs = [] := by
    rw [uniqueAux_eq_nil]
    intro y hy
    rw [hxs y hy]
    exact List.mem_singleton.mpr rfl
  rw [this]

/-- `componentSeries` has one entry per manifest row. -/
theorem componentSeries_length (m : Manifest) :
    (componentSeries m).length = m.rows.length := by
  simp [componentSeries]

/-- Branch lemma: when the `Component` check passes (or no `Component`
column exists), `validateModelManifest` returns the schema-phase errors. -/
theorem validate_eq_schemaPhase (rules : Str → List Str)
    (V : List (Str × NVal) → List JError) (rel : JError → Int) (root : Str)
    (m : Manifest) (h : componentOK root m = true) :
    validateModelManifest rules V rel root m = .ok (schemaPhase rules V rel m) := by
  unfold componentOK at h
  by_cases hcc : m.cols.contains (str "Component") = true
  · simp only [hcc, Bool.not_true, Bool.false_or, Bool.and_eq_true,
      Bool.not_eq_true, List.all_eq_true] at h
    obtain ⟨h1, h2⟩ := h
    have hne : componentSeries m ≠ [] := by
      intro h0
      rw [h0] at h1
      simp at h1
    have hall : ∀ x ∈ componentSeries m, x = Cell.cstr root := by
      intro x hx
      exact (cellEqStr_iff x root).mp (h2 x hx)
    have huniq : uniqueList (componentSeries m) = [Cell.cstr root] :=
      uniqueList_all_eq _ _ hne hall
    have hroot : cellEqStr (Cell.cstr root) root = true := (cellEqStr_iff _ _).mpr rfl
    have hccm : str "Component" ∈ m.cols := List.elem_iff.mp hcc
    simp [validateModelManifest, hccm, huniq, hroot]
  · have hccm : str "Component" ∉ m.cols := by
      intro hm
      exact hcc (List.elem_eq_true_of_mem hm)
    simp [validateModelManifest, hccm]

/-- Branch lemma: when some `Component` cell differs from the root (and
the series is non-empty), `validateModelManifest` returns the mismatch
errors, independently of the validator. -/
theorem validate_eq_mismatch (rules : Str → List Str)
    (V : List (Str × NVal) → List JError) (rel : JError → Int) (root : Str)
    (m : Manifest) (hcc : m.cols.contains (str "Component") = true)
    (hne : componentSeries m ≠ [])
    (hbad : ¬ ∀ x ∈ componentSeries m, x = Cell.cstr root) :
    validateModelManifest rules V rel root m =
      .ok (mismatchErrors root (componentSeries m)) := by
  have hccm : str "Component" ∈ m.cols := List.elem_iff.mp hcc
  by_cases hlen : (uniqueList (componentSeries m)).length > 1
  · simp [validateModelManifest, hccm, hlen]
  · have hune : uniqueList (componentSeries m) ≠ [] := by
      intro h0
      have := (uniqueAux_eq_nil [] (componentSeries m)).mp h0
      obtain ⟨x, hx⟩ := List.exists_mem_of_ne_nil _ hne
      exact absurd (this x hx) (List.not_mem_nil x)
    obtain ⟨x, xs, hx⟩ := List.exists_cons_of_ne_nil hune
    have hxs : xs = [] := by
      have : (uniqueList (componentSeries m)).length ≤ 1 := by omega
      rw [hx] at this
      simp only [List.length_cons] at this
      exact List.length_eq_zero.mp (by omega)
    rw [hxs] at hx
    have hallx : ∀ y ∈ componentSeries m, y = x := by
      intro y hy
      rcases uniqueAux_eq_singleton [] _ x hx y hy with h0 | h0
      · exact absurd h0 (List.not_mem_nil y)
      · exact h0
    have hxroot : cellEqStr x root = false := by
      rw [Bool.eq_false_iff]
      intro he
      apply hbad
      intro y hy
      rw [hallx y hy]
      exact (cellEqStr_iff x root).mp he
    simp [validateModelManifest, hccm, hx, hlen, hxroot]

/-- Branch lemma: a zero-row manifest with a `Component` column raises. -/
theorem validate_empty_raises (rules : Str → List Str)
    (V : List (Str × NVal) → List JError) (rel : JError → Int) (root : Str)
    (m : Manifest) (hcc : m.cols.contains (str "Component") = true)
    (hrows : m.rows = []) :
    validateModelManifest rules V rel root m =
      .error (str "IndexError: index 0 is out of bounds") := by
  have hccm : str "Component" ∈ m.cols := List.elem_iff.mp hcc
  have hser : componentSeries m = [] := by simp [componentSeries, hrows]
  have hu : uniqueList (componentSeries m) = [] := by rw [hser]; rfl
  simp [validateModelManifest, hccm, hu]

/-- Mapping a function over a filtered list is a `filterMap`. -/
theorem filter_map_eq_filterMap {α β : Type} (p : α → Bool) (g : α → β) (l : List α) :
    (l.filter p).map g = l.filterMap (fun a => if p a then some (g a) else none) := by
  induction l with
  | nil => rfl
  | cons x xs ih =>
    by_cases hx : p x = true
    · simp [hx, ih]
    · have hx2 : p x = false := by rw [Bool.eq_false_iff]; exact hx
      simp [hx2, ih]

/-- The component-mismatch error list is the per-row filter-map of the
series: one error tuple per cell that differs from the root. -/
theorem mismatchErrors_eq (root : Str) (series : List Cell) :
    mismatchErrors root series = series.enum.filterMap (fun p =>
      if cellEqStr p.2 root then none
      else some (p.1 + 2, str "Component", mismatchMsg p.2 root, EVal.pair p.2 root)) := by
  unfold mismatchErrors
  have hmem : ∀ p ∈ series.enum.filter (fun p => !cellEqStr p.2 root),
      series.getD p.1 (Cell.cstr []) = p.2 := by
    intro p hp
    have hp2 : p ∈ series.enum := List.mem_of_mem_filter hp
    have hget : series.get? p.1 = some p.2 := List.mem_enum_iff_get?.mp hp2
    rw [List.getD_eq_getElem?_getD, ← List.get?_eq_getElem?, hget]
    rfl
  rw [List.map_map, List.map_map]
  have hcongr : ∀ p ∈ series.enum.filter (fun p => !cellEqStr p.2 root),
      (((fun p => (p.1 + 2, str "Component", mismatchMsg p.2 root, EVal.pair p.2 root)) ∘
          fun i => ((i : Nat), series.getD i (Cell.cstr []))) ∘ Prod.fst) p =
        (fun p => (p.1 + 2, str "Component", mismatchMsg p.2 root, EVal.pair p.2 root)) p := by
    intro p hp
    obtain ⟨i, c⟩ := p
    have h2 : series.getD i (Cell.cstr []) = c := hmem ⟨i, c⟩ hp
    simp only [Function.comp_apply, h2]
  rw [List.map_congr_left hcongr, filter_map_eq_filterMap]
  congr 1
  funext p
  cases hc : cellEqStr p.2 root <;> simp [hc]

/-- Filtering a concatenation of lists filters each list. -/
theorem filter_flatten {α : Type} (p : α → Bool) (L : List (List α)) :
    L.flatten.filter p = (L.map (fun l => l.filter p)).flatten := by
  induction L with
  | nil => rfl
  | cons l ls ih => simp [List.filter_append, ih]

/-- Concatenating blocks indexed by `range n` of which all but block `i`
are empty gives block `i`. -/
theorem flatten_map_range_single {α : Type} (n i : Nat) (hi : i < n) (f : Nat → List α)
    (hf : ∀ j, j < n → j ≠ i → f j = []) :
    ((List.range n).map f).flatten = f i := by
  induction n with
  | zero => omega
  | succ k ih =>
    rw [List.range_succ, List.map_append, List.flatten_append]
    by_cases hik : i = k
    · have hnil : ((List.range k).map f).flatten = [] := by
        rw [List.flatten_eq_nil_iff]
        intro l hl
        obtain ⟨j, hj, rfl⟩ := List.mem_map.mp hl
        have hjk : j < k := List.mem_range.mp hj
        exact hf j (by omega) (by omega)
      rw [hnil, hik]
      simp
    · have h2 : f k = [] := hf k (by omega) (fun h => hik h.symm)
      have h3 : ((List.range k).map f).flatten = f i :=
        ih (by omega) (fun j hj hne => hf j (by omega) hne)
      simp [h2, h3]

/-- Filtering the concatenated tagged blocks by the tag of block `i`
yields block `i`. -/
theorem filter_fst_join_range {α : Type} (g : Nat → List (Nat × α)) (n i : Nat)
    (hi : i < n) (htag : ∀ j, ∀ x ∈ g j, x.1 = j + 2) :
    (((List.range n).map g).flatten.filter (fun x => x.1 == i + 2)) = g i := by
  rw [filter_flatten, List.map_map]
  have hblocks : ∀ j, j < n → j ≠ i →
      ((fun l => l.filter (fun x => x.1 == i + 2)) ∘ g) j = [] := by
    intro j hj hji
    simp only [Function.comp_apply]
    rw [List.filter_eq_nil_iff]
    intro x hx
    have hx1 := htag j x hx
    simp only [hx1]
    intro hbeq
    have heq : j + 2 = i + 2 := by simpa using hbeq
    omega
  rw [flatten_map_range_single n i hi _ hblocks]
  simp only [Function.comp_apply]
  rw [List.filter_eq_self]
  intro x hx
  rw [htag i x hx]
  simp

/-- One annotation record per manifest row. -/
theorem annotationsOf_length (rules : Str → List Str) (m : Manifest) :
    (annotationsOf rules m).length = m.rows.length := by
  simp [annotationsOf]

/-- Membership in `insertInt`. -/
theorem mem_insertInt (n : Int) (l : List Int) (a : Int) :
    a ∈ insertInt n l ↔ a = n ∨ a ∈ l := by
  induction l with
  | nil => simp [insertInt]
  | cons m ms ih =>
    by_cases h : n ≤ m
    · simp [insertInt, h]
    · simp only [insertInt, h, if_false, List.mem_cons, ih]
      constructor
      · rintro (h1 | h1 | h1)
        · exact Or.inr (Or.inl h1)
        · exact Or.inl h1
        · exact Or.inr (Or.inr h1)
      · rintro (h1 | h1 | h1)
        · exact Or.inr (Or.inl h1)
        · exact Or.inl h1
        · exact Or.inr (Or.inr h1)

/-- Membership in `sortInts`. -/
theorem mem_sortInts (l : List Int) (a : Int) : a ∈ sortInts l ↔ a ∈ l := by
  induction l with
  | nil => simp [sortInts]
  | cons x xs ih =>
    show a ∈ insertInt x (sortInts xs) ↔ _
    rw [mem_insertInt, ih]
    simp

/-- The stable relevance sort is empty exactly on an empty error list. -/
theorem sortByRelevance_eq_nil (rel : JError → Int) (es : List JError) :
    sortByRelevance rel es = [] ↔ es = [] := by
  constructor
  · intro h
    by_contra hne
    obtain ⟨e, he⟩ := List.exists_mem_of_ne_nil es hne
    have h1 : rel e ∈ es.map rel := List.mem_map_of_mem rel he
    have h2 : rel e ∈ sortInts (es.map rel) := (mem_sortInts _ _).mpr h1
    have h3 : rel e ∈ uniqueList (sortInts (es.map rel)) := (mem_uniqueList _ _).mpr h2
    have h4 : es.filter (fun x => rel x == rel e) = [] := List.bind_eq_nil.mp h _ h3
    have h5 : e ∈ es.filter (fun x => rel x == rel e) :=
      List.mem_filter.mpr ⟨he, by simp⟩
    rw [h4] at h5
    exact absurd h5 (List.not_mem_nil e)
  · intro h
    rw [h]
    rfl

/-- The schema phase produces no error exactly when the validator clears
every row. -/
theorem schemaPhase_eq_nil_iff (rules : Str → List Str)
    (V : List (Str × NVal) → List JError) (rel : JError → Int) (m : Manifest) :
    schemaPhase rules V rel m = [] ↔
      ∀ i, i < m.rows.length → V ((annotationsOf rules m).getD i []) = [] := by
  unfold schemaPhase
  rw [List.flatten_eq_nil_iff]
  constructor
  · intro h i hi
    have hi2 : i < (annotationsOf rules m).length := by
      rw [annotationsOf_length]; exact hi
    have hmem : (sortByRelevance rel (V ((annotationsOf rules m).getD i []))).map
        (errTuple i) ∈ (List.range (annotationsOf rules m).length).map (fun i =>
          (sortByRelevance rel (V ((annotationsOf rules m).getD i []))).map (errTuple i)) :=
      List.mem_map_of_mem _ (List.mem_range.mpr hi2)
    have h2 := h _ hmem
    have h3 : sortByRelevance rel (V ((annotationsOf rules m).getD i [])) = [] :=
      List.map_eq_nil.mp h2
    exact ((sortByRelevance_eq_nil rel _).mp h3)
  · intro h l hl
    obtain ⟨j, hj, rfl⟩ := List.mem_map.mp hl
    have hj2 : j < m.rows.length := by
      have := List.mem_range.mp hj
      rw [annotationsOf_length] at this
      exact this
    rw [h j hj2]
    rfl

/-- `mapM` over `Except` of pointwise-successful items is the mapped
list. -/
theorem mapM_eq_ok {α β : Type} (g : α → Except Str β) (f : α → β) (l : List α)
    (h : ∀ x ∈ l, g x = .ok (f x)) : l.mapM g = .ok (l.map f) := by
  induction l with
  | nil => rfl
  | cons x xs ih =>
    rw [List.mapM_cons, h x (List.mem_cons_self x xs),
      ih (fun y hy => h y (List.mem_cons_of_mem x hy))]
    rfl

/-- A well-shaped object item is processed into its `{"@id": ...}`
projection. -/
theorem expandListItemObj_good (ctx : List (Str × Str)) (it : LDVal)
    (h : goodObjItem it = true) :
    expandListItemObj ctx it = .ok (expandItem ctx it) := by
  cases it
  case vobj fs =>
    rcases hl : fs.lookup (str "@id") with _ | val
    · simp [goodObjItem, hl] at h
    · rcases val with s | vs | fs2 | n | b | _
      · simp [expandListItemObj, expandItem, hl]
      all_goals simp [goodObjItem, hl] at h
  all_goals simp [goodObjItem] at h

/-- A string item is processed into its curie expansion. -/
theorem expandListItemStr_good (ctx : List (Str × Str)) (it : LDVal)
    (h : isVStr it = true) :
    expandListItemStr ctx it = .ok (expandItem ctx it) := by
  cases it
  case vstr s => rfl
  all_goals simp [isVStr] at h

/-- A well-shaped kept value is expanded without raising. -/
theorem expandValue_good_kept (ctx : List (Str × Str)) (v : LDVal)
    (hg : goodVal v = true) (hk : keptVal v = true) :
    expandValue ctx v = .ok (some (expandedVal ctx v)) := by
  cases v with
  | vstr s => rfl
  | vnull => rfl
  | vnum n => simp [keptVal] at hk
  | vbool b => simp [keptVal] at hk
  | vobj fields =>
    rcases hl : fields.lookup (str "@id") with _ | val
    · simp [keptVal, hl] at hk
    · rcases val with s | vs | fs | n | b | _
      · simp [expandValue, expandedVal, hl]
      all_goals simp [goodVal, hl] at hg
  | varr vs =>
    cases vs with
    | nil => simp [goodVal] at hg
    | cons v0 rest =>
      cases v0 with
      | vobj f0 =>
        have hall : ∀ it ∈ (LDVal.vobj f0 :: rest), goodObjItem it = true := by
          rw [← List.all_eq_true]
          simpa [goodVal] using hg
        have hmap := mapM_eq_ok (expandListItemObj ctx) (expandItem ctx) _
          (fun it hit => expandListItemObj_good ctx it (hall it hit))
        rw [show expandValue ctx (LDVal.varr (LDVal.vobj f0 :: rest)) =
            ((LDVal.vobj f0 :: rest).mapM (expandListItemObj ctx)).map
              (fun items => some (LDVal.varr items)) from rfl]
        rw [hmap]
        rfl
      | vstr s0 =>
        have hall : ∀ it ∈ (LDVal.vstr s0 :: rest), isVStr it = true := by
          rw [← List.all_eq_true]
          simpa [goodVal] using hg
        have hmap := mapM_eq_ok (expandListItemStr ctx) (expandItem ctx) _
          (fun it hit => expandListItemStr_good ctx it (hall it hit))
        rw [show expandValue ctx (LDVal.varr (LDVal.vstr s0 :: rest)) =
            ((LDVal.vstr s0 :: rest).mapM (expandListItemStr ctx)).map
              (fun items => some (LDVal.varr items)) from rfl]
        rw [hmap]
        rfl
      | varr l0 =>
        have h0 : isVStr (LDVal.varr l0) = true := by
          have := (List.all_eq_true.mp (by simpa [goodVal] using hg)) _
            (List.mem_cons_self _ rest)
          exact this
        simp [isVStr] at h0
      | vnum n0 =>
        have h0 : isVStr (LDVal.vnum n0) = true :=
          (List.all_eq_true.mp (by simpa [goodVal] using hg)) _ (List.mem_cons_self _ rest)
        simp [isVStr] at h0
      | vbool b0 =>
        have h0 : isVStr (LDVal.vbool b0) = true :=
          (List.all_eq_true.mp (by simpa [goodVal] using hg)) _ (List.mem_cons_self _ rest)
        simp [isVStr] at h0
      | vnull =>
        have h0 : isVStr LDVal.vnull = true :=
          (List.all_eq_true.mp (by simpa [goodVal] using hg)) _ (List.mem_cons_self _ rest)
        simp [isVStr] at h0

/-- A well-shaped dropped value is silently skipped. -/
theorem expandValue_good_dropped (ctx : List (Str × Str)) (v : LDVal)
    (hg : goodVal v = true) (hk : keptVal v = false) :
    expandValue ctx v = .ok none := by
  cases v with
  | vnum n => rfl
  | vbool b => rfl
  | vstr s => simp [keptVal] at hk
  | vnull => simp [keptVal] at hk
  | varr vs => simp [keptVal] at hk
  | vobj fields =>
    rcases hl : fields.lookup (str "@id") with _ | val
    · simp [expandValue, hl]
    · simp [keptVal, hl] at hk

/-- Python dict assignment with a fresh key appends. -/
theorem upsert_not_mem (k : Str) (v : LDVal) (acc : List (Str × LDVal))
    (h : k ∉ acc.map Prod.fst) : upsert k v acc = acc ++ [(k, v)] := by
  unfold upsert
  have hany : acc.any (fun p => p.1 == k) = false := by
    rw [List.any_eq_false]
    intro p hp
    intro hbeq
    have : p.1 = k := by simpa using hbeq
    exact h (this ▸ List.mem_map_of_mem Prod.fst hp)
  simp [hany]

/-- The record loop of `expand_curies_in_schema` on well-shaped values
with collision-free expanded keys appends exactly one entry per kept
key-value pair, in record order. -/
theorem expandRecord_aux (ctx : List (Str × Str)) (record : List (Str × LDVal))
    (acc : List (Str × LDVal))
    (hgood : ∀ kv ∈ record, goodVal kv.2 = true)
    (hnd : (keptKeys ctx record).Nodup)
    (hdisj : ∀ k ∈ acc.map Prod.fst, k ∉ keptKeys ctx record) :
    record.foldlM (expandStep ctx) acc =
      .ok (acc ++ record.filterMap (fun kv =>
        if keptVal kv.2 then
          some (expand_curie_to_uri kv.1 ctx, expandedVal ctx kv.2)
        else none)) := by
  induction record generalizing acc with
  | nil =>
    rw [List.foldlM_nil]
    simp only [List.filterMap_nil, List.append_nil]
    rfl
  | cons kv rest ih =>
    have hgkv : goodVal kv.2 = true := hgood kv (List.mem_cons_self kv rest)
    rw [List.foldlM_cons]
    by_cases hkept : keptVal kv.2 = true
    · have hkk : keptKeys ctx (kv :: rest) =
          expand_curie_to_uri kv.1 ctx :: keptKeys ctx rest := by
        simp [keptKeys, hkept]
      have hstep : expandStep ctx acc kv =
          .ok (upsert (expand_curie_to_uri kv.1 ctx) (expandedVal ctx kv.2) acc) := by
        unfold expandStep
        rw [expandValue_good_kept ctx kv.2 hgkv hkept]
      rw [hstep]
      show rest.foldlM (expandStep ctx)
          (upsert (expand_curie_to_uri kv.1 ctx) (expandedVal ctx kv.2) acc) = _
      have hfresh : expand_curie_to_uri kv.1 ctx ∉ acc.map Prod.fst := by
        intro hmem
        have := hdisj _ hmem
        rw [hkk] at this
        exact this (List.mem_cons_self _ _)
      rw [upsert_not_mem _ _ _ hfresh]
      have hnd2 : (keptKeys ctx rest).Nodup := by
        rw [hkk] at hnd
        exact hnd.of_cons
      have hhead : expand_curie_to_uri kv.1 ctx ∉ keptKeys ctx rest := by
        rw [hkk] at hnd
        exact (List.nodup_cons.mp hnd).1
      have hdisj2 : ∀ k ∈ (acc ++ [(expand_curie_to_uri kv.1 ctx, expandedVal ctx kv.2)]).map
          Prod.fst, k ∉ keptKeys ctx rest := by
        intro k hk
        rw [List.map_append, List.mem_append] at hk
        rcases hk with hk | hk
        · intro hmem
          have := hdisj k hk
          rw [hkk] at this
          exact this (List.mem_cons_of_mem _ hmem)
        · simp only [List.map_cons, List.map_nil, List.mem_singleton] at hk
          rw [hk]
          exact hhead
      rw [ih _ (fun y hy => hgood y (List.mem_cons_of_mem kv hy)) hnd2 hdisj2]
      simp [hkept, List.append_assoc]
    · have hkf : keptVal kv.2 = false := by
        rw [Bool.eq_false_iff]
        exact hkept
      have hkk : keptKeys ctx (kv :: rest) = keptKeys ctx rest := by
        simp [keptKeys, hkf]
      have hstep : expandStep ctx acc kv = .ok acc := by
        unfold expandStep
        rw [expandValue_good_dropped ctx kv.2 hgkv hkf]
      rw [hstep]
      show rest.foldlM (expandStep ctx) acc = _
      have hnd2 : (keptKeys ctx rest).Nodup := by
        rw [hkk] at hnd
        exact hnd
      have hdisj2 : ∀ k ∈ acc.map Prod.fst, k ∉ keptKeys ctx rest := by
        intro k hk
        have := hdisj k hk
        rw [hkk] at this
        exact this
      rw [ih _ (fun y hy => hgood y (List.mem_cons_of_mem kv hy)) hnd2 hdisj2]
      simp [hkf]

/-! ## Claim theorems -/

/-- C1 (amended): with a `Component` column and at least one row, if any
`Component` cell — empty cells included — differs from the root,
validation short-circuits with exactly one error tuple per differing row
(row index + 2, "Component", a message naming found and expected values,
the (found, expected) pair), independently of the validator; per-row
schema validation proceeds exactly when every `Component` cell equals the
root. -/
theorem C1_component_check (rules : Str → List Str)
    (V : List (Str × NVal) → List JError) (rel : JError → Int) (root : Str)
    (m : Manifest) (hcc : m.cols.contains (str "Component") = true)
    (hne : m.rows ≠ []) :
    (¬ (∀ x ∈ componentSeries m, x = Cell.cstr root) →
      validateModelManifest rules V rel root m =
        .ok ((componentSeries m).enum.filterMap (fun p =>
          if cellEqStr p.2 root then none
          else some (p.1 + 2, str "Component", mismatchMsg p.2 root, EVal.pair p.2 root))))
    ∧ ((∀ x ∈ componentSeries m, x = Cell.cstr root) →
        validateModelManifest rules V rel root m = .ok (schemaPhase rules V rel m)) := by
  have hser : componentSeries m ≠ [] := by
    intro h0
    have hlen := componentSeries_length m
    rw [h0] at hlen
    exact hne (List.length_eq_zero.mp hlen.symm)
  constructor
  · intro hbad
    rw [validate_eq_mismatch rules V rel root m hcc hser hbad, mismatchErrors_eq]
  · intro hall
    apply validate_eq_schemaPhase
    unfold componentOK
    have h1 : (componentSeries m).isEmpty = false := by
      rcases hs : componentSeries m with _ | _
      · exact absurd hs hser
      · rfl
    have h2 : (componentSeries m).all (fun c => cellEqStr c root) = true := by
      rw [List.all_eq_true]
      intro x hx
      exact (cellEqStr_iff x root).mpr (hall x hx)
    simp [h1, h2]

/-- C1 counterexample: all non-empty `Component` values equal the root
`R`, yet the empty cell triggers the short-circuit and a mismatch error
is returned instead of the (empty) schema-validation result. -/
theorem C1_cex :
    validateModelManifest (fun _ => []) (fun _ => []) (fun _ => 0) (str "R")
      ⟨[str "Component", str "Other"],
       [[Cell.cstr (str "R"), Cell.cstr (str "a")],
        [Cell.cstr [], Cell.cstr (str "b")]]⟩ =
      .ok [(3, str "Component", mismatchMsg (Cell.cstr []) (str "R"),
            EVal.pair (Cell.cstr []) (str "R"))]
    ∧ validateModelManifest (fun _ => []) (fun _ => []) (fun _ => 0) (str "R")
        ⟨[str "Component", str "Other"],
         [[Cell.cstr (str "R"), Cell.cstr (str "a")],
          [Cell.cstr [], Cell.cstr (str "b")]]⟩ ≠ .ok [] :=
  ⟨by decide, by decide⟩

/-- Closed instance of C1 on an all-matching `Component` column. -/
theorem C1_witness :
    validateModelManifest (fun _ => []) (fun _ => []) (fun _ => 0) (str "R")
      ⟨[str "Component"], [[Cell.cstr (str "R")]]⟩ =
      .ok (schemaPhase (fun _ => []) (fun _ => []) (fun _ => 0)
        ⟨[str "Component"], [[Cell.cstr (str "R")]]⟩) :=
  (C1_component_check (fun _ => []) (fun _ => []) (fun _ => 0) (str "R")
    ⟨[str "Component"], [[Cell.cstr (str "R")]]⟩ (by decide) (by decide)).2 (by decide)

/-- C2: when the component check passes, the result is the schema phase;
the errors whose reported row is `i + 2` are exactly row `i`'s validator
errors in relevance order; and each tuple carries row `i + 2`, the
message truncated to 500 characters (exactly 500 when longer), the last
path element and the instance — or the "Wrong schema" sentinels on an
empty path. -/
theorem C2_error_tuples (rules : Str → List Str)
    (V : List (Str × NVal) → List JError) (rel : JError → Int) (root : Str)
    (m : Manifest) (h : componentOK root m = true) :
    validateModelManifest rules V rel root m = .ok (schemaPhase rules V rel m)
    ∧ (∀ i, i < m.rows.length →
        (schemaPhase rules V rel m).filter (fun t => t.1 == i + 2) =
          (sortByRelevance rel (V ((annotationsOf rules m).getD i []))).map (errTuple i))
    ∧ (∀ i (e : JError), (errTuple i e).1 = i + 2
        ∧ (errTuple i e).2.2.1 = e.message.take 500
        ∧ (errTuple i e).2.2.1.length = min 500 e.message.length
        ∧ (e.path ≠ [] → (errTuple i e).2.1 = e.path.getLastD [] ∧
            (errTuple i e).2.2.2 = EVal.inst e.inst)
        ∧ (e.path = [] → (errTuple i e).2.1 = str "Wrong schema" ∧
            (errTuple i e).2.2.2 = EVal.wrongSchema)) := by
  refine ⟨validate_eq_schemaPhase rules V rel root m h, ?_, ?_⟩
  · intro i hi
    have hi2 : i < (annotationsOf rules m).length := by
      rw [annotationsOf_length]
      exact hi
    have htag : ∀ j, ∀ x ∈ (fun j =>
        (sortByRelevance rel (V ((annotationsOf rules m).getD j []))).map (errTuple j)) j,
        x.1 = j + 2 := by
      intro j x hx
      obtain ⟨e, he, rfl⟩ := List.mem_map.mp hx
      rfl
    exact filter_fst_join_range _ _ i hi2 htag
  · intro i e
    refine ⟨rfl, rfl, List.length_take 500 e.message, ?_, ?_⟩
    · intro hp
      have hl : e.path.length > 0 := List.length_pos.mpr hp
      constructor <;> simp [errTuple, hl]
    · intro hp
      constructor <;> simp [errTuple, hp]

/-- Closed instance of C2 on a one-row manifest with no `Component`. -/
theorem C2_witness :
    validateModelManifest (fun _ => []) (fun _ => [⟨[], str "m", JVal.field (NVal.s [])⟩])
      (fun _ => 0) (str "R") ⟨[str "A"], [[Cell.cstr (str "x")]]⟩ =
      .ok (schemaPhase (fun _ => []) (fun _ => [⟨[], str "m", JVal.field (NVal.s [])⟩])
        (fun _ => 0) ⟨[str "A"], [[Cell.cstr (str "x")]]⟩) :=
  (C2_error_tuples (fun _ => []) (fun _ => [⟨[], str "m", JVal.field (NVal.s [])⟩])
    (fun _ => 0) (str "R") ⟨[str "A"], [[Cell.cstr (str "x")]]⟩ (by decide)).1

/-- C3 (amended): when the component check passes — which requires at
least one row whenever a `Component` column is present — the full
accumulated error list over all rows is returned (never truncated), and
it is empty exactly when the validator clears every row. -/
theorem C3_error_accumulation (rules : Str → List Str)
    (V : List (Str × NVal) → List JError) (rel : JError → Int) (root : Str)
    (m : Manifest) (h : componentOK root m = true) :
    validateModelManifest rules V rel root m = .ok (schemaPhase rules V rel m)
    ∧ (validateModelManifest rules V rel root m = .ok [] ↔
        ∀ i, i < m.rows.length → V ((annotationsOf rules m).getD i []) = []) := by
  have h1 := validate_eq_schemaPhase rules V rel root m h
  refine ⟨h1, ?_⟩
  rw [h1]
  constructor
  · intro h2
    have h3 : schemaPhase rules V rel m = [] := by
      injection h2
    exact (schemaPhase_eq_nil_iff rules V rel m).mp h3
  · intro h2
    rw [(schemaPhase_eq_nil_iff rules V rel m).mpr h2]

/-- C3 counterexample: a zero-row manifest with a `Component` column
(vacuously agreeing with the root) raises instead of returning the empty
error list. -/
theorem C3_cex :
    validateModelManifest (fun _ => []) (fun _ => []) (fun _ => 0) (str "R")
      ⟨[str "Component"], []⟩ = .error (str "IndexError: index 0 is out of bounds")
    ∧ validateModelManifest (fun _ => []) (fun _ => []) (fun _ => 0) (str "R")
        ⟨[str "Component"], []⟩ ≠ .ok [] :=
  ⟨by decide, by decide⟩

/-- Closed instance of C3 on a manifest without a `Component` column. -/
theorem C3_witness :
    validateModelManifest (fun _ => []) (fun _ => []) (fun _ => 0) (str "R") ⟨[str "B"], []⟩ =
      .ok (schemaPhase (fun _ => []) (fun _ => []) (fun _ => 0) ⟨[str "B"], []⟩) :=
  (C3_error_accumulation (fun _ => []) (fun _ => []) (fun _ => 0) (str "R")
    ⟨[str "B"], []⟩ (by decide)).1

/-- C7: in a column whose schema node carries the `list` validation rule,
the record handed to the validator holds, in place of the scalar, the
cell split on commas with each token stripped. -/
theorem C7_list_rule (rules : Str → List Str) (m : Manifest) (i j : Nat) (c : Str)
    (hj : m.cols.get? j = some c) (hi : i < m.rows.length)
    (hrule : str "list" ∈ rules c) :
    ((annotationsOf rules m).getD i []).get? j =
      some (c, NVal.l ((pySplit1 ',' (cellToStr
        ((m.rows.getD i []).getD j (Cell.cstr [])))).map pyStrip)) := by
  have hrec : (annotationsOf rules m).getD i [] = m.cols.enum.map (fun jc =>
      (jc.2, (normalizeCol rules jc.2 (colValues m jc.1)).getD i (NVal.s []))) := by
    unfold annotationsOf
    rw [List.getD_eq_getElem?_getD, List.getElem?_map, List.getElem?_range hi]
    rfl
  rw [hrec, List.get?_eq_getElem?, List.getElem?_map, List.getElem?_enum]
  have hcj : m.cols[j]? = some c := by
    rw [← List.get?_eq_getElem?]
    exact hj
  rw [hcj]
  have hrow : m.rows[i]? = some (m.rows.getD i []) := by
    rw [List.getD_eq_getElem?_getD]
    rcases hx : m.rows[i]? with _ | r
    · rw [List.getElem?_eq_none_iff] at hx
      omega
    · rfl
  have hcol : (colValues m j)[i]? = some ((m.rows.getD i []).getD j (Cell.cstr [])) := by
    unfold colValues
    rw [List.getElem?_map, hrow]
    rfl
  have hclen : (rules c).contains (str "list") = true := List.elem_eq_true_of_mem hrule
  have hnorm : (normalizeCol rules c (colValues m j)).getD i (NVal.s []) =
      NVal.l ((pySplit1 ',' (cellToStr
        ((m.rows.getD i []).getD j (Cell.cstr [])))).map pyStrip) := by
    unfold normalizeCol
    simp only [hclen, if_true]
    rw [List.getD_eq_getElem?_getD, List.getElem?_map, List.getElem?_map, hcol]
    rfl
  simp only [Option.map_some']
  rw [hnorm]

/-- Closed instance of C7: the cell `"a, b ,c"` normalizes to the
sequence `["a", "b", "c"]`. -/
theorem C7_witness :
    ((annotationsOf (fun _ => [str "list"])
        ⟨[str "A"], [[Cell.cstr (str "a, b ,c")]]⟩).getD 0 []).get? 0 =
      some (str "A", NVal.l [str "a", str "b", str "c"]) :=
  (C7_list_rule (fun _ => [str "list"]) ⟨[str "A"], [[Cell.cstr (str "a, b ,c")]]⟩ 0 0
    (str "A") (by decide) (by decide) (by decide)).trans (by decide)

/-- C4: `getOrderedModelNodes(root, rel)` is exactly the reverse of
`get_descendants_by_edge_type(root, rel, connected=True, ordered=True)`,
and for distinct nodes of that (duplicate-free) ordering, `u` precedes `v`
in the final output exactly when the un-reversed order placed `v` before
`u`. -/
theorem C4_ordered_model_nodes (desc : String → String → Bool → Bool → List String)
    (root rel u v : String) :
    getOrderedModelNodes desc root rel = (desc root rel true true).reverse
    ∧ ((desc root rel true true).Nodup → u ∈ desc root rel true true →
        v ∈ desc root rel true true → u ≠ v →
        ((getOrderedModelNodes desc root rel).indexOf u <
            (getOrderedModelNodes desc root rel).indexOf v ↔
          (desc root rel true true).indexOf v <
            (desc root rel true true).indexOf u)) := by
  constructor
  · rfl
  · intro hnd hu hv huv
    have hiu : (desc root rel true true).indexOf u < (desc root rel true true).length :=
      List.indexOf_lt_length.mpr hu
    have hiv : (desc root rel true true).indexOf v < (desc root rel true true).length :=
      List.indexOf_lt_length.mpr hv
    have hne : (desc root rel true true).indexOf u ≠ (desc root rel true true).indexOf v :=
      fun h => huv ((List.indexOf_inj hu hv).mp h)
    have hru := indexOf_reverse_of_nodup hnd hu
    have hrv := indexOf_reverse_of_nodup hnd hv
    show ((desc root rel true true).reverse.indexOf u <
        (desc root rel true true).reverse.indexOf v ↔ _)
    rw [hru, hrv]
    omega

/-- Closed instance of C4 at a concrete two-node ordering. -/
theorem C4_witness :
    ((getOrderedModelNodes (fun _ _ _ _ => ["a", "b"]) "r" "e").indexOf "a" <
        (getOrderedModelNodes (fun _ _ _ _ => ["a", "b"]) "r" "e").indexOf "b" ↔
      (["a", "b"] : List String).indexOf "b" < (["a", "b"] : List String).indexOf "a") :=
  (C4_ordered_model_nodes (fun _ _ _ _ => ["a", "b"]) "r" "e" "a" "b").2
    (by decide) (by decide) (by decide) (by decide)

/-- C5: name extraction returns the second colon-part when the input has
no "http" substring and exactly two colon-parts; otherwise the last
"/"-segment after the last "//" when there is more than one such segment;
otherwise it raises. -/
theorem C5_extract_name (item a b : Str) :
    (pyContains (str "http") item = false → pySplit1 ':' item = [a, b] →
      extract_name_from_uri_or_curie item = .ok b)
    ∧ ((pyContains (str "http") item = true ∨ (pySplit1 ':' item).length ≠ 2) →
        (pySplit1 '/' ((pySplit2 '/' '/' item).getLastD [])).length > 1 →
        extract_name_from_uri_or_curie item =
          .ok ((pySplit1 '/' ((pySplit2 '/' '/' item).getLastD [])).getLastD []))
    ∧ ((pyContains (str "http") item = true ∨ (pySplit1 ':' item).length ≠ 2) →
        ¬ (pySplit1 '/' ((pySplit2 '/' '/' item).getLastD [])).length > 1 →
        extract_name_from_uri_or_curie item =
          .error (str "Error extracting name from URI or Curie.")) := by
  refine ⟨?_, ?_, ?_⟩
  · intro h1 h2
    simp [extract_name_from_uri_or_curie, h1, h2]
  · intro h1 h2
    have hc : (!pyContains (str "http") item && ((pySplit1 ':' item).length == 2)) = false := by
      rcases h1 with h | h <;> simp [h]
    simp only [List.getLastD_eq_getLast?] at h2 ⊢
    simp [extract_name_from_uri_or_curie, hc, h2]
  · intro h1 h2
    have hc : (!pyContains (str "http") item && ((pySplit1 ':' item).length == 2)) = false := by
      rcases h1 with h | h <;> simp [h]
    simp only [List.getLastD_eq_getLast?] at h2
    simp [extract_name_from_uri_or_curie, hc, h2]

/-- Closed instance of C5 on the curie `bts:Patient`. -/
theorem C5_witness :
    extract_name_from_uri_or_curie (str "bts:Patient") = .ok (str "Patient") :=
  (C5_extract_name (str "bts:Patient") (str "bts") (str "Patient")).1 (by decide) (by decide)

/-- C6: `expand_curie_to_uri` replaces a two-part curie whose first part
is a context key outside the fixed no-expand set by the context value
concatenated with the second part, and returns the input unmodified in
every other case. -/
theorem C6_expand_curie (s u : Str) (ctx : List (Str × Str)) (p v : Str) :
    (pySplit1 ':' s = [p, v] → ctx.lookup p = some u → p ∉ prefixes_not_expand →
      expand_curie_to_uri s ctx = u ++ v)
    ∧ (pySplit1 ':' s = [p, v] → ctx.lookup p = none → expand_curie_to_uri s ctx = s)
    ∧ (pySplit1 ':' s = [p, v] → p ∈ prefixes_not_expand → expand_curie_to_uri s ctx = s)
    ∧ ((pySplit1 ':' s).length ≠ 2 → expand_curie_to_uri s ctx = s) := by
  refine ⟨?_, ?_, ?_, ?_⟩
  · intro h1 h2 h3
    simp [expand_curie_to_uri, h1, h2, h3]
  · intro h1 h2
    simp [expand_curie_to_uri, h1, h2]
  · intro h1 h2
    simp [expand_curie_to_uri, h1, h2]
  · intro h
    simp [expand_curie_to_uri, h]

/-- Closed instance of C6 on `bts:X` with context `bts -> http://s/`. -/
theorem C6_witness :
    expand_curie_to_uri (str "bts:X") [(str "bts", str "http://s/")] = str "http://s/X" :=
  ((C6_expand_curie (str "bts:X") (str "http://s/") [(str "bts", str "http://s/")]
      (str "bts") (str "X")).1 (by decide) (by decide) (by decide)).trans (by decide)

/-- C8: the `applymap`-strip on the manifest discards its result, so a
string cell keeps its surrounding whitespace in the records handed to the
validator, even though `pyStrip` would have removed it. -/
theorem C8_whitespace_not_trimmed :
    annotationsOf (fun _ => []) ⟨[str "A"], [[Cell.cstr (str " x ")]]⟩ =
      [[(str "A", NVal.s (str " x "))]]
    ∧ pyStrip (str " x ") ≠ str " x " :=
  ⟨by decide, by decide⟩

/-- C9: `submit_metadata_manifest` fails with the unknown-component error
before validating or associating when the component is not in the schema;
raises the validation-failed error carrying the full error list without
associating when validation returns errors; and associates exactly when
validation is skipped or returns no errors. -/
theorem C9_submit (rules : Str → List Str) (V : List (Str × NVal) → List JError)
    (rel : JError → Int) (cls : Str → Bool) (m : Manifest) (c : Str) (errs : List VErr) :
    (cls c = false →
      submit_metadata_manifest rules V rel cls m (some c) =
        ⟨false, false, .error (.unknownComponent c)⟩)
    ∧ (cls c = true → validateModelManifest rules V rel c m = .ok errs → errs ≠ [] →
        submit_metadata_manifest rules V rel cls m (some c) =
          ⟨true, false, .error (.validationFailed errs)⟩)
    ∧ (∀ vc : Option Str,
        (submit_metadata_manifest rules V rel cls m vc).associateCalled = true ↔
          vc = none ∨ ∃ c2, vc = some c2 ∧ cls c2 = true ∧
            validateModelManifest rules V rel c2 m = .ok []) := by
  refine ⟨?_, ?_, ?_⟩
  · intro h
    simp [submit_metadata_manifest, h]
  · intro h1 h2 h3
    have h4 : errs.isEmpty = false := by
      rcases errs with _ | ⟨e0, es⟩
      · exact absurd rfl h3
      · rfl
    simp [submit_metadata_manifest, h1, h2, h4]
  · intro vc
    cases vc with
    | none => simp [submit_metadata_manifest]
    | some c2 =>
      cases hcls : cls c2 with
      | false => simp [submit_metadata_manifest, hcls]
      | true =>
        cases hval : validateModelManifest rules V rel c2 m with
        | error e => simp [submit_metadata_manifest, hcls, hval]
        | ok es =>
          rcases es with _ | ⟨e0, es2⟩
          · simp [submit_metadata_manifest, hcls, hval]
          · simp [submit_metadata_manifest, hcls, hval, List.isEmpty]

/-- Closed instance of C9: an unknown component aborts before validation
and association. -/
theorem C9_witness :
    submit_metadata_manifest (fun _ => []) (fun _ => []) (fun _ => 0) (fun _ => false)
      ⟨[], []⟩ (some (str "X")) =
      ⟨false, false, .error (.unknownComponent (str "X"))⟩ :=
  (C9_submit (fun _ => []) (fun _ => []) (fun _ => 0) (fun _ => false)
    ⟨[], []⟩ (str "X") []).1 rfl

/-- C10 (amended): on a document whose record values are well-shaped
(strings; null; dicts whose `@id`, when present, is a string; non-empty
lists of strings or of dicts each with a string `@id`) and whose kept
keys expand to pairwise distinct names within each record,
`expand_curies_in_schema` returns the same `@context` and `@id` and one
output record per input record in order, each containing exactly the
curie-expanded keys of the kept values (strings, lists, dicts with `@id`,
null) in input order; numbers, booleans and dicts without `@id` are
silently dropped. -/
theorem C10_expand_schema (schema : LDDoc)
    (hgood : ∀ r ∈ schema.graph, ∀ kv ∈ r, goodVal kv.2 = true)
    (hnd : ∀ r ∈ schema.graph, (keptKeys schema.context r).Nodup) :
    expand_curies_in_schema schema =
      .ok ⟨schema.context,
        schema.graph.map (fun r => r.filterMap (fun kv =>
          if keptVal kv.2 then
            some (expand_curie_to_uri kv.1 schema.context, expandedVal schema.context kv.2)
          else none)),
        schema.id⟩ := by
  unfold expand_curies_in_schema
  have hrec : ∀ r ∈ schema.graph, expandRecord schema.context r =
      .ok (r.filterMap (fun kv =>
        if keptVal kv.2 then
          some (expand_curie_to_uri kv.1 schema.context, expandedVal schema.context kv.2)
        else none)) := by
    intro r hr
    have := expandRecord_aux schema.context r [] (hgood r hr) (hnd r hr) (by simp)
    simpa [expandRecord] using this
  rw [mapM_eq_ok (expandRecord schema.context) _ schema.graph hrec]
  rfl

/-- C10 counterexample: a record value that is an empty list makes the
whole call raise, instead of the key being kept in the output record. -/
theorem C10_cex :
    expand_curies_in_schema ⟨[], [[(str "k", LDVal.varr [])]], str "x"⟩ =
      .error (str "IndexError: list index out of range")
    ∧ expand_curies_in_schema ⟨[], [[(str "k", LDVal.varr [])]], str "x"⟩ ≠
      .ok ⟨[], [[(str "k", LDVal.varr [])]], str "x"⟩ :=
  ⟨rfl, fun h => Except.noConfusion h⟩

/-- Closed instance of C10 on a record with one value of each kept and
dropped shape. -/
theorem C10_witness :
    expand_curies_in_schema ⟨[(str "bts", str "http://s/")],
      [[(str "@id", LDVal.vstr (str "bts:X")), (str "n", LDVal.vnum 3),
        (str "d", LDVal.vobj [(str "@id", LDVal.vstr (str "bts:Y"))]),
        (str "l", LDVal.varr [LDVal.vstr (str "bts:A")])]], str "i"⟩ =
      .ok ⟨[(str "bts", str "http://s/")],
        [[(str "@id", LDVal.vstr (str "bts:X")), (str "n", LDVal.vnum 3),
          (str "d", LDVal.vobj [(str "@id", LDVal.vstr (str "bts:Y"))]),
          (str "l", LDVal.varr [LDVal.vstr (str "bts:A")])]].map (fun r =>
            r.filterMap (fun kv =>
              if keptVal kv.2 then
                some (expand_curie_to_uri kv.1 [(str "bts", str "http://s/")],
                  expandedVal [(str "bts", str "http://s/")] kv.2)
              else none)),
        str "i"⟩ :=
  C10_expand_schema ⟨[(str "bts", str "http://s/")],
    [[(str "@id", LDVal.vstr (str "bts:X")), (str "n", LDVal.vnum 3),
      (str "d", LDVal.vobj [(str "@id", LDVal.vstr (str "bts:Y"))]),
      (str "l", LDVal.varr [LDVal.vstr (str "bts:A")])]], str "i"⟩
    (by decide) (by decide)

end Schematic
